import Mathlib

/-!
Verification of the Reference-Preview plugin core (reference-list parsing,
identity keys, section building with dedup, change signatures, and the
draft editing session) against a shallow embedding of its TypeScript
sources.  Strings are modelled as lists of characters; stateful document
access is modelled by explicit store-passing with an explicit write log.
-/

namespace RefPrev

/-- Strings are modelled as lists of characters. -/
abbrev Str := List Char

/-- Whitespace recognised by the JavaScript string trim operation
(the ASCII whitespace characters plus NBSP and the BOM). -/
def isJsSpace (c : Char) : Bool :=
  c = ' ' || c = '\t' || c = '\n' || c = '\r' ||
  c = Char.ofNat 0x0B || c = Char.ofNat 0x0C ||
  c = Char.ofNat 0xA0 || c = Char.ofNat 0xFEFF

/-- Model of the JavaScript trim method: drop whitespace from both ends. -/
def trim (s : Str) : Str :=
  ((s.dropWhile isJsSpace).reverse.dropWhile isJsSpace).reverse

/-- Delimiters of the split regex (newline, comma or semicolon) used by
parseFrontmatterValue in src/main.ts and src/view.ts. -/
def isDelim (c : Char) : Bool :=
  c = '\n' || c = ',' || c = ';'

/-- Model of the JavaScript split on the regex matching one newline, comma
or semicolon: every delimiter occurrence ends the current piece, so
consecutive delimiters produce empty pieces and the empty input yields one
empty piece. -/
def splitDelims : Str → List Str
  | [] => [[]]
  | c :: rest =>
    if isDelim c then [] :: splitDelims rest
    else
      match splitDelims rest with
      | [] => [[c]]
      | p :: ps => (c :: p) :: ps

/-- Model of a JavaScript value found inside a frontmatter list. -/
inductive JsValue where
  | jstr (s : Str)
  | jnum (n : Int)
  | jbool (b : Bool)
  | jnull
deriving DecidableEq, Repr

/-- Model of the JavaScript String conversion applied to a list element. -/
def jsToString : JsValue → Str
  | .jstr s => s
  | .jnum n => (toString n).data
  | .jbool b => if b then "true".data else "false".data
  | .jnull => "null".data

/-- Model of a raw frontmatter field value: an array, a string, some other
typed value, or absent. -/
inductive FmValue where
  | varr (xs : List JsValue)
  | vstr (s : Str)
  | vnum (n : Int)
  | vbool (b : Bool)
  | vnull
  | vabsent
deriving DecidableEq, Repr

/-- Embedding of parseFrontmatterValue (src/main.ts lines 21-30, identical
copy in src/view.ts): arrays are stringified element-wise, a string is
split on newline, comma or semicolon, trimmed piece-wise, with empty
pieces dropped; anything else yields the empty list. -/
def parseFrontmatterValue : FmValue → List Str
  | .varr xs => xs.map jsToString
  | .vstr s => ((splitDelims s).map trim).filter (fun p => p ≠ [])
  | _ => []

/-- Model of the document store: each field name holds a raw value. -/
abbrev Store := Str → FmValue

/-- Pointwise store update for one field. -/
def storeSet (store : Store) (key : Str) (v : FmValue) : Store :=
  fun k => if k = key then v else store k

/-- First-occurrence deduplication with a seen set, as the loop in
getEffectiveKeys (src/main.ts lines 35-43). -/
def dedupFirst (seen : List Str) : List Str → List Str
  | [] => []
  | k :: ks =>
    if seen.contains k then dedupFirst seen ks
    else k :: dedupFirst (k :: seen) ks

/-- Embedding of getEffectiveKeys (src/main.ts lines 32-44): trim the
configured keys, drop empties, fall back to the default field name when
nothing remains, otherwise deduplicate preserving first occurrences. -/
def getEffectiveKeys (rawKeys : List Str) : List Str :=
  let keys := (rawKeys.map trim).filter (fun k => k ≠ [])
  if keys = [] then ["previewLinks".data]
  else dedupFirst [] keys

/-- Embedding of getPreviewList (src/main.ts lines 63-67): the parsed form
of the stored raw value of one field. -/
def getPreviewList (store : Store) (key : Str) : List Str :=
  parseFrontmatterValue (store key)

/-- Embedding of getPreviewListsByKey (src/main.ts lines 69-74) as the
function giving each field its parsed stored list. -/
def getPreviewListsByKey (store : Store) : Str → List Str :=
  fun k => getPreviewList store k

/-- Embedding of the comparison in setPreviewList (src/main.ts line 78):
equal lengths and element-wise equality at every index. -/
def sameList (current list : List Str) : Bool :=
  current.length == list.length &&
  (current.zip list).all (fun vw => vw.1 == vw.2)

/-- Log entry for one processFrontMatter effect: either a list assignment
to a field or the deletion of a field. -/
inductive Write where
  | setList (key : Str) (list : List Str)
  | deleteKey (key : Str)
deriving DecidableEq, Repr

/-- Field name touched by a write. -/
def Write.key : Write → Str
  | .setList k _ => k
  | .deleteKey k => k

/-- Embedding of setPreviewList (src/main.ts lines 76-85): when the parsed
current list equals the new list nothing happens; otherwise an empty list
deletes the field and a non-empty list is stored as an array. -/
def setPreviewList (store : Store) (key : Str) (list : List Str) :
    Store × List Write :=
  if sameList (getPreviewList store key) list then (store, [])
  else if list = [] then (storeSet store key .vabsent, [.deleteKey key])
  else (storeSet store key (.varr (list.map .jstr)), [.setList key list])

/-- Embedding of the commit callback of the edit command (src/main.ts
lines 115-119): write every configured field in order through
setPreviewList, threading the store and collecting the writes. -/
def commitAll (keys : List Str) (byKey : Str → List Str) (store : Store) :
    Store × List Write :=
  match keys with
  | [] => (store, [])
  | k :: ks =>
    let r1 := setPreviewList store k (byKey k)
    let r2 := commitAll ks byKey r1.1
    (r2.1, r1.2 ++ r2.2)

/-- Embedding of pickInitialEditKey (src/main.ts lines 46-61): the first
effective field whose stored value parses non-empty; otherwise the trimmed
default field when non-empty and configured; otherwise the first field. -/
def pickInitialEditKey (rawKeys : List Str) (store : Store) (defKey : Str) :
    Str :=
  let keys := getEffectiveKeys rawKeys
  match keys.find? (fun k => !(parseFrontmatterValue (store k)).isEmpty) with
  | some k => k
  | none =>
    let d := trim defKey
    if d ≠ [] ∧ keys.contains d then d else keys.headD []

/-- Characters matched by an unflagged JavaScript regex dot: everything
except the line terminators. -/
def isRegexDot (c : Char) : Bool :=
  !(c = '\n' || c = '\r' || c = Char.ofNat 0x2028 || c = Char.ofNat 0x2029)

/-- Model of the anchored wikilink regex match in entryKey and renderOne
(src/view.ts): the entry must be a pair of brackets wrapping a non-empty
middle free of line terminators; the captured group is that middle. -/
def wikiInside (entry : Str) : Option Str :=
  if 5 ≤ entry.length ∧ entry.take 2 = "[[".data ∧
     entry.drop (entry.length - 2) = "]]".data ∧
     ((entry.drop 2).take (entry.length - 4)).all isRegexDot then
    some ((entry.drop 2).take (entry.length - 4))
  else none

/-- Split a list at the first occurrence of a character, returning the
parts before and after it, as the JavaScript indexOf plus slice idiom. -/
def firstSplit (c : Char) : Str → Option (Str × Str)
  | [] => none
  | x :: xs =>
    if x = c then some ([], xs)
    else
      match firstSplit c xs with
      | none => none
      | some ab => some (x :: ab.1, ab.2)

/-- Part of the captured wikilink group before its first pipe (the alias
separator); the whole group when no pipe occurs. -/
def targetRawOf (inside : Str) : Str :=
  match firstSplit '|' inside with
  | some ab => ab.1
  | none => inside

/-- ASCII lower-casing, for the case-insensitive regex flags. -/
def asciiLower (c : Char) : Char :=
  if 'A' ≤ c ∧ c ≤ 'Z' then Char.ofNat (c.toNat + 32) else c

/-- Model of the case-insensitive extension strip replace in entryKey:
remove a trailing ".md" (any letter case) when present. -/
def stripMdExt (t : Str) : Str :=
  if 3 ≤ t.length ∧ (t.drop (t.length - 3)).map asciiLower = ".md".data then
    t.take (t.length - 3)
  else t

/-- Modelled from the spec: the Obsidian helper parseLinktext is not part
of this repository's sources; per section 4.2 it splits a link text at the
anchor separator into the path part and the subpath part (empty subpath
when no separator occurs). -/
def parseLinktext (t : Str) : Str × Str :=
  match firstSplit '#' t with
  | none => (t, [])
  | some ps => ps

/-- Model of the case-insensitive HTTP(S) URL prefix test. -/
def isHttpUrl (e : Str) : Bool :=
  (e.take 7).map asciiLower = "http://".data ||
  (e.take 8).map asciiLower = "https://".data

/-- Embedding of entryKey (src/view.ts lines 337-350, the sectioned view):
the stable identity key of one entry, qualified by the property key it was
found under.  Wikilinks drop the alias, strip a trailing .md, split into
path and subpath and fall back to the whole target when the path is empty;
URLs and plain text are used verbatim under distinct markers. -/
def entryKey (propKey : Str) (entry : Str) : Str :=
  match wikiInside entry with
  | some inside =>
    let targetRaw := targetRawOf inside
    let targetNoExt := stripMdExt targetRaw
    let path := (parseLinktext targetNoExt).1
    let subpath := (parseLinktext targetNoExt).2
    let sp := if subpath ≠ [] then '#' :: subpath else []
    "p:".data ++ propKey ++ "|wikilink:".data ++
      (if path ≠ [] then path else targetNoExt) ++ sp
  | none =>
    if isHttpUrl entry then "p:".data ++ propKey ++ "|url:".data ++ entry
    else "p:".data ++ propKey ++ "|txt:".data ++ entry

/-- Section of parsed entries for one field, as the ParsedSection type of
src/view.ts. -/
structure ParsedSection where
  key : Str
  entries : List Str
deriving DecidableEq, Repr

/-- Settings fields consumed by buildSections. -/
structure BuildSettings where
  frontmatterKeys : List Str
  maxItems : Nat
  dedupe : Bool

/-- Inner loop of the dedupe pass of buildSections: keep an entry when its
key is unseen, threading the seen set. -/
def dedupeEntries (seen : List Str) (propKey : Str) :
    List Str → List Str × List Str
  | [] => ([], seen)
  | e :: es =>
    let ek := entryKey propKey e
    if seen.contains ek then dedupeEntries seen propKey es
    else
      let r := dedupeEntries (ek :: seen) propKey es
      (e :: r.1, r.2)

/-- Outer loop of the dedupe pass of buildSections: the seen set is
threaded across sections in order. -/
def dedupeSections (seen : List Str) : List ParsedSection → List ParsedSection
  | [] => []
  | sec :: rest =>
    let r := dedupeEntries seen sec.key sec.entries
    ⟨sec.key, r.1⟩ :: dedupeSections r.2 rest

/-- Embedding of buildSections (src/view.ts lines 264-295): parse each
configured field in order, skip empty parses, truncate to maxItems when
positive, optionally run the dedupe pass, and drop empty sections. -/
def buildSections (st : BuildSettings) (fm : Store) : List ParsedSection :=
  let keys := (st.frontmatterKeys.map trim).filter (fun k => k ≠ [])
  let keys := if keys ≠ [] then keys else ["previewLinks".data]
  let sections := keys.filterMap (fun k =>
    let entries := parseFrontmatterValue (fm k)
    if entries = [] then none
    else
      let slice :=
        if st.maxItems ≠ 0 ∧ st.maxItems < entries.length then
          entries.take st.maxItems
        else entries
      some ⟨k, slice⟩)
  let sections := if st.dedupe then dedupeSections [] sections else sections
  sections.filter (fun s => s.entries ≠ [])

/-- Hexadecimal digit characters as emitted in JSON unicode escapes. -/
def toHexDigit (n : Nat) : Char :=
  if n < 10 then Char.ofNat (48 + n) else Char.ofNat (87 + n)

/-- Model of the JSON escaping of one character inside a string literal:
quote, backslash and the named control shorthands get a backslash escape,
the remaining control characters get a unicode escape, and every other
character stands for itself. -/
def jsonEscapeChar (c : Char) : Str :=
  if c = '"' then ['\\', '"']
  else if c = '\\' then ['\\', '\\']
  else if c = Char.ofNat 8 then ['\\', 'b']
  else if c = '\t' then ['\\', 't']
  else if c = '\n' then ['\\', 'n']
  else if c = Char.ofNat 12 then ['\\', 'f']
  else if c = '\r' then ['\\', 'r']
  else if c.toNat < 32 then
    ['\\', 'u', '0', '0', toHexDigit (c.toNat / 16), toHexDigit (c.toNat % 16)]
  else [c]

/-- JSON string literal for one string: quotes around the escaped body. -/
def jsonQuote (s : Str) : Str :=
  '"' :: (s.map jsonEscapeChar).flatten ++ ['"']

/-- Comma-separated JSON string literals, the body of an array. -/
def arrBody : List Str → Str
  | [] => []
  | [x] => jsonQuote x
  | x :: y :: xs => jsonQuote x ++ ',' :: arrBody (y :: xs)

/-- JSON array of strings. -/
def jsonArr (xs : List Str) : Str :=
  '[' :: arrBody xs ++ [']']

/-- Comma-separated members of the payload object: each configured field
name quoted, a colon, then the JSON array of its parsed entries. -/
def objBody : List (Str × List Str) → Str
  | [] => []
  | [p] => jsonQuote p.1 ++ ':' :: jsonArr p.2
  | p :: q :: ps => jsonQuote p.1 ++ ':' :: jsonArr p.2 ++ ',' :: objBody (q :: ps)

/-- Embedding of computeFrontmatterSig (src/main.ts lines 238-247): the
JSON serialization of the object holding the effective key list and the
mapping of each key to its parsed (never deduped, never truncated) entry
list, in configured order. -/
def computeFrontmatterSig (rawKeys : List Str) (fm : Store) : Str :=
  let keys := getEffectiveKeys rawKeys
  let payload := keys.map (fun k => (k, parseFrontmatterValue (fm k)))
  "\x7b\"keys\":".data ++ jsonArr keys ++
    ",\"payload\":\x7b".data ++ objBody payload ++ "\x7d\x7d".data

/-- Decision taken by the metadata-change handler (src/main.ts lines
146-148): it returns early exactly when the stored signature exists and
equals the fresh one, so a re-render happens on plain string inequality. -/
def sigUnchanged (oldSig : Option Str) (newSig : Str) : Bool :=
  match oldSig with
  | some o => newSig == o
  | none => false

/-- State of an open ReorderAndAddModal session: the configured fields,
the active field, the per-field drafts, and the displayed row order of the
active field (the DOM list, authoritative until flushed). -/
structure ModalState where
  keys : List Str
  currentKey : Str
  drafts : Str → List Str
  displayed : List Str

/-- Mutations available while a session is open. -/
inductive SessionOp where
  | switchField (k : Str)
  | append (v : Str)
  | removeAt (i : Nat)
  | reorder (l : List Str)

/-- Pointwise draft update for one field. -/
def draftSet (drafts : Str → List Str) (key : Str) (l : List Str) :
    Str → List Str :=
  fun k => if k = key then l else drafts k

/-- Embedding of saveCurrentToDraft (src/reorder-add-modal.ts lines
126-132): the displayed row order becomes the active field's draft. -/
def saveCurrentToDraft (m : ModalState) : ModalState :=
  { m with drafts := draftSet m.drafts m.currentKey m.displayed }

/-- Embedding of the modal mutations (src/reorder-add-modal.ts): field
switch flushes then re-displays the new field's draft; append flushes then
pushes the value and re-displays; row removal and drag or keyboard
reordering act on the displayed list only. -/
def applyOp (m : ModalState) : SessionOp → ModalState
  | .switchField k =>
    let m' := saveCurrentToDraft m
    { m' with currentKey := k, displayed := m'.drafts k }
  | .append v =>
    let m' := saveCurrentToDraft m
    { m' with drafts := draftSet m'.drafts m.currentKey (m.displayed ++ [v]),
              displayed := m.displayed ++ [v] }
  | .removeAt i => { m with displayed := m.displayed.eraseIdx i }
  | .reorder l => { m with displayed := l }

/-- Embedding of the ReorderAndAddModal constructor plus onOpen
(src/reorder-add-modal.ts lines 17-34, 90-92): fall back to the default
field list when empty, keep the initial key only when configured, start
from the given drafts and display the active field's draft. -/
def openModal (keys : List Str) (initialKey : Str)
    (initialByKey : Str → List Str) : ModalState :=
  let keys' := if keys ≠ [] then keys else ["previewLinks".data]
  let ck := if keys'.contains initialKey then initialKey else keys'.headD []
  { keys := keys', currentKey := ck, drafts := initialByKey,
    displayed := initialByKey ck }

/-- Run a list of session mutations in order. -/
def runOps (m : ModalState) (ops : List SessionOp) : ModalState :=
  ops.foldl applyOp m

/-- Closing alternatives of a session. -/
inductive SessionEnd where
  | commit
  | cancel

/-- Embedding of the footer buttons (src/reorder-add-modal.ts lines
104-113): the save button flushes the displayed order and hands all drafts
to the commit callback, which writes them through setPreviewList; the
cancel button only closes the modal, performing no store operation. -/
def endSession : SessionEnd → Store → ModalState → Store × List Write
  | .commit, store, m =>
    let m' := saveCurrentToDraft m
    commitAll m.keys m'.drafts store
  | .cancel, store, _ => (store, [])

/-- Wikilink-shaped entry with the given target-plus-subpath text and
alias text. -/
def mkWiki (t a : Str) : Str :=
  '[' :: '[' :: (t ++ '|' :: a) ++ [']', ']']

/-- Path-and-subpath tail of a wikilink identity key, as computed by the
some branch of entryKey from the extension-stripped target. -/
def wikiBody (t : Str) : Str :=
  (if (parseLinktext t).1 ≠ [] then (parseLinktext t).1 else t) ++
    (if (parseLinktext t).2 ≠ [] then '#' :: (parseLinktext t).2 else [])

/-- Normalization of a link target under which the wikilink identity key
is injective: a single trailing anchor separator with nothing after it and
a non-empty part before it is dropped; every other target is unchanged. -/
def linkNorm (t : Str) : Str :=
  match firstSplit '#' t with
  | some ps => if ps.2 = [] ∧ ps.1 ≠ [] then ps.1 else t
  | none => t

/-- Recovery map from the identity-key tail back to the normalized
target: a tail starting with the anchor separator and at least two
characters long is the doubled fallback form and is halved. -/
def halveSharp (s : Str) : Str :=
  match s with
  | c :: _ :: _ => if c = '#' then s.take (s.length / 2) else s
  | _ => s

/-- Numeric value of a hexadecimal digit character; garbage maps to 0. -/
def hexVal (c : Char) : Nat :=
  if '0' ≤ c ∧ c ≤ '9' then c.toNat - 48
  else if 'a' ≤ c ∧ c ≤ 'f' then c.toNat - 87
  else if 'A' ≤ c ∧ c ≤ 'F' then c.toNat - 55
  else 0

/-- Inverse of the named JSON escape shorthands. -/
def unescapeChar : Char → Option Char
  | '"' => some '"'
  | '\\' => some '\\'
  | 'b' => some (Char.ofNat 8)
  | 't' => some '\t'
  | 'n' => some '\n'
  | 'f' => some (Char.ofNat 12)
  | 'r' => some '\r'
  | _ => none

/-- Decoder of a JSON string body up to its closing quote, the left
inverse of the escaping used by the signature serialization; it returns
the decoded text and the unconsumed remainder.  The fuel argument bounds
the number of decoded characters and makes the recursion structural. -/
def decodeStrAuxF : Nat → Str → Option (Str × Str)
  | 0, _ => none
  | _ + 1, [] => none
  | fuel + 1, c :: rest =>
    if c = '"' then some ([], rest)
    else if c = '\\' then
      match rest with
      | [] => none
      | e :: rest2 =>
        if e = 'u' then
          match rest2 with
          | h1 :: h2 :: h3 :: h4 :: rest3 =>
            (decodeStrAuxF fuel rest3).map (fun sr =>
              (Char.ofNat (((hexVal h1 * 16 + hexVal h2) * 16 + hexVal h3) * 16
                + hexVal h4) :: sr.1, sr.2))
          | _ => none
        else
          match unescapeChar e with
          | none => none
          | some c2 => (decodeStrAuxF fuel rest2).map (fun sr => (c2 :: sr.1, sr.2))
    else (decodeStrAuxF fuel rest).map (fun sr => (c :: sr.1, sr.2))

/-- Decoder of a quoted JSON string literal followed by a remainder. -/
def decodeQuoted : Str → Option (Str × Str)
  | '"' :: t => decodeStrAuxF t.length t
  | _ => none

theorem sameList_refl (a : List Str) : sameList a a = true := by
  have h : ∀ l : List Str, (l.zip l).all (fun vw => vw.1 == vw.2) = true := by
    intro l
    induction l with
    | nil => rfl
    | cons x xs ih => simpa [List.zip_cons_cons] using ih
  simp [sameList, h]

theorem sameList_iff (a b : List Str) : sameList a b = true ↔ a = b := by
  constructor
  · intro h
    unfold sameList at h
    rw [Bool.and_eq_true] at h
    obtain ⟨h1, h2⟩ := h
    have hlen : a.length = b.length := by simpa using h1
    apply List.ext_getElem hlen
    intro i hi hib
    have hz : i < (a.zip b).length := by
      simp only [List.length_zip]
      omega
    have hmem : (a[i], b[i]) ∈ a.zip b := by
      have hg : (a.zip b)[i] = (a[i], b[i]) := List.getElem_zip
      rw [← hg]
      exact List.getElem_mem hz
    have := List.all_eq_true.mp h2 _ hmem
    simpa using this
  · rintro rfl
    exact sameList_refl a

theorem setPreviewList_same (store : Store) (k : Str) (l : List Str)
    (h : getPreviewList store k = l) :
    setPreviewList store k l = (store, []) := by
  unfold setPreviewList
  rw [if_pos ((sameList_iff _ _).mpr h)]

theorem setPreviewList_fst_other (store : Store) (k k' : Str) (l : List Str)
    (h : k' ≠ k) : (setPreviewList store k l).1 k' = store k' := by
  unfold setPreviewList
  split
  · rfl
  · split <;> simp [storeSet, h]

theorem setPreviewList_write_key (store : Store) (k : Str) (l : List Str) :
    ∀ w ∈ (setPreviewList store k l).2, w.key = k := by
  unfold setPreviewList
  split
  · simp
  · split <;> simp [Write.key]

theorem setPreviewList_write_of_ne (store : Store) (k : Str) (l : List Str)
    (h : getPreviewList store k ≠ l) :
    ∃ w ∈ (setPreviewList store k l).2, w.key = k := by
  unfold setPreviewList
  rw [if_neg (fun hc => h ((sameList_iff _ _).mp hc))]
  split <;> simp [Write.key]

theorem commitAll_fst_notin (keys : List Str) (byKey : Str → List Str)
    (store : Store) (k : Str) (h : k ∉ keys) :
    (commitAll keys byKey store).1 k = store k := by
  induction keys generalizing store with
  | nil => rfl
  | cons k0 ks ih =>
    simp only [List.mem_cons, not_or] at h
    simp only [commitAll]
    rw [ih _ h.2, setPreviewList_fst_other _ _ _ _ h.1]

theorem commitAll_write_mem (keys : List Str) (byKey : Str → List Str)
    (store : Store) :
    ∀ w ∈ (commitAll keys byKey store).2, w.key ∈ keys := by
  induction keys generalizing store with
  | nil => simp [commitAll]
  | cons k0 ks ih =>
    intro w hw
    simp only [commitAll, List.mem_append] at hw
    rcases hw with hw | hw
    · exact List.mem_cons.mpr (Or.inl (setPreviewList_write_key _ _ _ w hw))
    · exact List.mem_cons.mpr (Or.inr (ih _ w hw))

theorem commitAll_writes_iff (keys : List Str) (hnd : keys.Nodup)
    (byKey : Str → List Str) (store : Store) (k : Str) (hk : k ∈ keys) :
    (∃ w ∈ (commitAll keys byKey store).2, w.key = k) ↔
      byKey k ≠ getPreviewList store k := by
  induction keys generalizing store with
  | nil => cases hk
  | cons k0 ks ih =>
    obtain ⟨hnot, hnd'⟩ := List.nodup_cons.mp hnd
    simp only [commitAll, List.mem_append]
    rcases List.mem_cons.mp hk with rfl | hk'
    · constructor
      · rintro ⟨w, hw | hw, hkey⟩
        · intro he
          have := setPreviewList_same store k _ he.symm
          rw [this] at hw
          cases hw
        · exact absurd (hkey ▸ commitAll_write_mem ks byKey _ w hw) hnot
      · intro hne
        obtain ⟨w, hw, hkey⟩ :=
          setPreviewList_write_of_ne store k (byKey k) (fun he => hne he.symm)
        exact ⟨w, Or.inl hw, hkey⟩
    · have hkne : k ≠ k0 := fun he => hnot (he ▸ hk')
      have hstep : (setPreviewList store k0 (byKey k0)).1 k = store k :=
        setPreviewList_fst_other _ _ _ _ hkne
      constructor
      · rintro ⟨w, hw | hw, hkey⟩
        · exact absurd ((setPreviewList_write_key store k0 (byKey k0) w hw).symm.trans hkey).symm hkne
        · have := (ih hnd' _ hk').mp ⟨w, hw, hkey⟩
          rwa [getPreviewList, hstep] at this
      · intro hne
        have : byKey k ≠ getPreviewList (setPreviewList store k0 (byKey k0)).1 k := by
          rwa [getPreviewList, hstep]
        obtain ⟨w, hw, hkey⟩ := (ih hnd' _ hk').mpr this
        exact ⟨w, Or.inr hw, hkey⟩

theorem commitAll_fst_unchanged (keys : List Str) (byKey : Str → List Str)
    (store : Store) (k : Str) (h : byKey k = getPreviewList store k) :
    (commitAll keys byKey store).1 k = store k := by
  induction keys generalizing store with
  | nil => rfl
  | cons k0 ks ih =>
    by_cases hk : k = k0
    · subst hk
      simp only [commitAll]
      rw [setPreviewList_same store k (byKey k) h.symm]
      exact ih store h
    · simp only [commitAll]
      have hstep : (setPreviewList store k0 (byKey k0)).1 k = store k :=
        setPreviewList_fst_other _ _ _ _ hk
      rw [ih _ (by rwa [getPreviewList, hstep]), hstep]

theorem commitAll_noop (keys : List Str) (store : Store) :
    commitAll keys (getPreviewListsByKey store) store = (store, []) := by
  induction keys with
  | nil => rfl
  | cons k0 ks ih =>
    simp only [commitAll]
    rw [setPreviewList_same store k0 (getPreviewListsByKey store k0) rfl]
    rw [ih]
    rfl

theorem find?_first {α : Type} (p : α → Bool) (pre : List α) (k : α)
    (post : List α) (hpre : ∀ x ∈ pre, p x = false) (hk : p k = true) :
    (pre ++ k :: post).find? p = some k := by
  induction pre with
  | nil => simp [List.find?_cons, hk]
  | cons x xs ih =>
    have hx : p x = false := hpre x (List.mem_cons_self x xs)
    simp only [List.cons_append, List.find?_cons, hx]
    exact ih (fun y hy => hpre y (List.mem_cons_of_mem x hy))

theorem dedupFirst_subset (seen l : List Str) (x : Str)
    (h : x ∈ dedupFirst seen l) : x ∈ l := by
  induction l generalizing seen with
  | nil => cases h
  | cons y ys ih =>
    unfold dedupFirst at h
    by_cases hc : seen.contains y
    · rw [if_pos hc] at h
      exact List.mem_cons_of_mem y (ih _ h)
    · rw [if_neg hc] at h
      rcases List.mem_cons.mp h with rfl | h'
      · exact List.mem_cons_self x ys
      · exact List.mem_cons_of_mem y (ih _ h')

theorem effectiveKeys_mem_ne_nil (rawKeys : List Str) (x : Str)
    (h : x ∈ getEffectiveKeys rawKeys) : x ≠ [] := by
  simp only [getEffectiveKeys] at h
  split at h
  · intro he
    subst he
    simp at h
  · have := dedupFirst_subset _ _ _ h
    have h2 := (List.mem_filter.mp this).2
    simpa using h2

theorem takeWhile_all {α : Type} (p : α → Bool) (l : List α) :
    ∀ c ∈ l.takeWhile p, p c = true := by
  intro c hc
  exact List.mem_takeWhile_imp hc

theorem trim_decomp (s : Str) :
    ∃ a b, s = a ++ trim s ++ b ∧ (∀ c ∈ a, isJsSpace c = true) ∧
      (∀ c ∈ b, isJsSpace c = true) := by
  refine ⟨s.takeWhile isJsSpace,
    ((s.dropWhile isJsSpace).reverse.takeWhile isJsSpace).reverse, ?_, ?_, ?_⟩
  · have h1 : s.takeWhile isJsSpace ++ s.dropWhile isJsSpace = s :=
      List.takeWhile_append_dropWhile isJsSpace s
    have h2 : (s.dropWhile isJsSpace).reverse.takeWhile isJsSpace ++
        (s.dropWhile isJsSpace).reverse.dropWhile isJsSpace =
        (s.dropWhile isJsSpace).reverse :=
      List.takeWhile_append_dropWhile isJsSpace (s.dropWhile isJsSpace).reverse
    have h3 := congrArg List.reverse h2
    rw [List.reverse_append, List.reverse_reverse] at h3
    unfold trim
    rw [List.append_assoc, h3]
    exact h1.symm
  · exact takeWhile_all _ _
  · intro c hc
    rw [List.mem_reverse] at hc
    exact List.mem_takeWhile_imp hc

theorem splitDelims_ne_nil (s : Str) : splitDelims s ≠ [] := by
  cases s with
  | nil => simp [splitDelims]
  | cons c rest =>
    unfold splitDelims
    split
    · simp
    · split
      · simp
      · simp

theorem splitDelims_flatten (s : Str) :
    (splitDelims s).flatten = s.filter (fun c => !(isDelim c)) := by
  induction s with
  | nil => rfl
  | cons c rest ih =>
    unfold splitDelims
    by_cases hc : isDelim c
    · rw [if_pos hc]
      simp [List.filter_cons, hc, ih]
    · rw [if_neg hc]
      rcases hrest : splitDelims rest with _ | ⟨p, ps⟩
      · exact absurd hrest (splitDelims_ne_nil rest)
      · rw [hrest] at ih
        simp only [List.flatten_cons, List.cons_append, List.filter_cons]
        simp [hc, ← ih]

theorem firstSplit_eq_none {c : Char} {t : Str} :
    firstSplit c t = none ↔ c ∉ t := by
  induction t with
  | nil => simp [firstSplit]
  | cons x xs ih =>
    unfold firstSplit
    by_cases hx : x = c
    · subst hx
      simp
    · rw [if_neg hx]
      rcases h : firstSplit c xs with _ | ab
      · simpa [List.mem_cons, Ne.symm hx] using ih.mp h
      · constructor
        · intro hc
          cases hc
        · intro hc
          exact absurd (ih.mpr (fun hm => hc (List.mem_cons_of_mem x hm))) (by simp [h])

theorem firstSplit_eq_some {c : Char} {t a b : Str}
    (h : firstSplit c t = some (a, b)) : t = a ++ c :: b ∧ c ∉ a := by
  induction t generalizing a with
  | nil => cases h
  | cons x xs ih =>
    unfold firstSplit at h
    by_cases hx : x = c
    · subst hx
      rw [if_pos rfl] at h
      cases h
      simp
    · rw [if_neg hx] at h
      rcases h2 : firstSplit c xs with _ | ab
      · rw [h2] at h
        cases h
      · rw [h2] at h
        cases h
        obtain ⟨he, hm⟩ := ih h2
        constructor
        · rw [List.cons_append, ← he]
        · intro hc
          rcases List.mem_cons.mp hc with he2 | hm2
          · exact hx he2.symm
          · exact hm hm2

theorem firstSplit_append {c : Char} {t : Str} (rest : Str) (h : c ∉ t) :
    firstSplit c (t ++ c :: rest) = some (t, rest) := by
  induction t with
  | nil => simp [firstSplit]
  | cons x xs ih =>
    have hx : x ≠ c := fun he => h (he ▸ List.mem_cons_self x xs)
    simp only [List.cons_append]
    unfold firstSplit
    rw [if_neg hx, ih (fun hm => h (List.mem_cons_of_mem x hm))]

theorem wikiInside_mk (i : Str) (hne : i ≠ [])
    (hdot : ∀ c ∈ i, isRegexDot c = true) :
    wikiInside ('[' :: '[' :: i ++ [']', ']']) = some i := by
  have hlen : ('[' :: '[' :: i ++ [']', ']']).length = i.length + 4 := by
    simp only [List.cons_append, List.length_cons, List.length_append,
      List.length_cons, List.length_nil]
  have hpos : 0 < i.length := List.length_pos.mpr hne
  have hd2 : ('[' :: '[' :: i ++ [']', ']']).drop 2 = i ++ [']', ']'] := rfl
  have hsub2 : i.length + 4 - 2 = i.length + 2 := by omega
  have hsub4 : i.length + 4 - 4 = i.length := by omega
  have hdropBig : ('[' :: '[' :: i ++ [']', ']']).drop (i.length + 2) = [']', ']'] := by
    show (('[' :: '[' :: i) ++ [']', ']']).drop (i.length + 2) = [']', ']']
    have hl : ('[' :: '[' :: i).length = i.length + 2 := by
      simp only [List.length_cons]
    rw [← hl]
    exact List.drop_left _ _
  have htake : (i ++ [']', ']']).take i.length = i := List.take_left _ _
  unfold wikiInside
  rw [hlen, hsub2, hsub4, hd2, hdropBig, htake]
  rw [if_pos ⟨by omega, rfl, rfl, List.all_eq_true.mpr hdot⟩]

theorem entryKey_wiki (p e i : Str) (h : wikiInside e = some i) :
    entryKey p e =
      "p:".data ++ (p ++ ("|wikilink:".data ++
        wikiBody (stripMdExt (targetRawOf i)))) := by
  simp only [entryKey, h, wikiBody, targetRawOf, List.append_assoc]

theorem entryKey_url (p e : Str) (h : wikiInside e = none)
    (hu : isHttpUrl e = true) :
    entryKey p e = "p:".data ++ (p ++ ("|url:".data ++ e)) := by
  simp only [entryKey, h, hu, if_true, List.append_assoc]

theorem entryKey_txt (p e : Str) (h : wikiInside e = none)
    (hu : isHttpUrl e = false) :
    entryKey p e = "p:".data ++ (p ++ ("|txt:".data ++ e)) := by
  simp only [entryKey, h, hu, Bool.false_eq_true, if_false, List.append_assoc]

theorem halveSharp_no_sharp (s : Str) (h : '#' ∉ s) : halveSharp s = s := by
  match s with
  | [] => rfl
  | [c] => rfl
  | c :: d :: rest =>
    have hc : c ≠ '#' := fun he => h (he ▸ List.mem_cons_self _ _)
    show (if c = '#' then _ else _) = _
    rw [if_neg hc]

theorem parseLinktext_of_none {t : Str} (h : firstSplit '#' t = none) :
    parseLinktext t = (t, []) := by
  unfold parseLinktext
  rw [h]

theorem parseLinktext_of_some {t pr su : Str}
    (h : firstSplit '#' t = some (pr, su)) : parseLinktext t = (pr, su) := by
  unfold parseLinktext
  rw [h]

theorem linkNorm_of_none {t : Str} (h : firstSplit '#' t = none) :
    linkNorm t = t := by
  unfold linkNorm
  rw [h]

theorem linkNorm_of_some {t pr su : Str}
    (h : firstSplit '#' t = some (pr, su)) :
    linkNorm t = if su = [] ∧ pr ≠ [] then pr else t := by
  unfold linkNorm
  rw [h]

theorem halveSharp_wikiBody (t : Str) : halveSharp (wikiBody t) = linkNorm t := by
  rcases hfs : firstSplit '#' t with _ | ⟨pr, su⟩
  · have hnotin : '#' ∉ t := firstSplit_eq_none.mp hfs
    have hb : wikiBody t = t := by
      simp only [wikiBody, parseLinktext_of_none hfs]
      split <;> simp
    rw [hb, linkNorm_of_none hfs]
    exact halveSharp_no_sharp t hnotin
  · obtain ⟨ht, hpr⟩ := firstSplit_eq_some hfs
    by_cases hsu : su = []
    · subst hsu
      by_cases hprn : pr = []
      · subst hprn
        simp only [List.nil_append] at ht
        have hb : wikiBody t = t := by
          simp only [wikiBody, parseLinktext_of_some hfs]
          simp
        rw [hb, linkNorm_of_some hfs, if_neg (by simp)]
        rw [ht]
        rfl
      · have hb : wikiBody t = pr := by
          simp only [wikiBody, parseLinktext_of_some hfs]
          rw [if_pos hprn, if_neg (by simp)]
          exact List.append_nil pr
        rw [hb, linkNorm_of_some hfs, if_pos ⟨rfl, hprn⟩]
        exact halveSharp_no_sharp pr hpr
    · by_cases hprn : pr = []
      · subst hprn
        simp only [List.nil_append] at ht
        have hb : wikiBody t = t ++ t := by
          simp only [wikiBody, parseLinktext_of_some hfs]
          rw [if_neg (by simp), if_pos hsu, ht]
        rw [hb, linkNorm_of_some hfs, if_neg (by simp [hsu])]
        rcases hsuc : su with _ | ⟨c1, su'⟩
        · exact absurd hsuc hsu
        · have htt : halveSharp (t ++ t) = (t ++ t).take ((t ++ t).length / 2) := by
            rw [ht, hsuc]
            rfl
          have hlen2 : (t ++ t).length / 2 = t.length := by
            simp only [List.length_append]
            omega
          rw [htt, hlen2, List.take_left]
      · have hb : wikiBody t = t := by
          simp only [wikiBody, parseLinktext_of_some hfs]
          rw [if_pos hprn, if_pos hsu, ht]
        rw [hb, linkNorm_of_some hfs, if_neg (by simp [hsu])]
        rcases hprc : pr with _ | ⟨p1, pr'⟩
        · exact absurd hprc hprn
        · have hhead : t = p1 :: (pr' ++ '#' :: su) := by
            rw [ht, hprc]
            rfl
          have hp1 : p1 ≠ '#' := fun he => hpr (by simp [hprc, he])
          rcases hrest : pr' ++ '#' :: su with _ | ⟨d, ds⟩
          · simp at hrest
          · rw [hhead, hrest]
            show (if p1 = '#' then _ else _) = _
            rw [if_neg hp1]

theorem hexVal_toHexDigit : ∀ m : Nat, m < 16 → hexVal (toHexDigit m) = m := by
  decide

theorem jsonEscapeChar_length_pos (c : Char) : 1 ≤ (jsonEscapeChar c).length := by
  unfold jsonEscapeChar
  split_ifs <;> simp

theorem escaped_length_ge (s : Str) :
    s.length ≤ (s.map jsonEscapeChar).flatten.length := by
  induction s with
  | nil => simp
  | cons c cs ih =>
    simp only [List.map_cons, List.flatten_cons, List.length_append,
      List.length_cons]
    have := jsonEscapeChar_length_pos c
    omega

theorem decode_u (f : Nat) (h3 h4 : Char) (rest : Str) :
    decodeStrAuxF (f + 1) ('\\' :: 'u' :: '0' :: '0' :: h3 :: h4 :: rest) =
      (decodeStrAuxF f rest).map
        (fun sr => (Char.ofNat (hexVal h3 * 16 + hexVal h4) :: sr.1, sr.2)) := by
  have harith : ((hexVal '0' * 16 + hexVal '0') * 16 + hexVal h3) * 16 + hexVal h4 =
      hexVal h3 * 16 + hexVal h4 := by
    have h0 : hexVal '0' = 0 := rfl
    rw [h0]
    ring
  show (decodeStrAuxF f rest).map
      (fun sr => (Char.ofNat (((hexVal '0' * 16 + hexVal '0') * 16 + hexVal h3) * 16
        + hexVal h4) :: sr.1, sr.2)) = _
  rw [harith]

theorem decode_escape (f : Nat) (c : Char) (rest : Str) :
    decodeStrAuxF (f + 1) (jsonEscapeChar c ++ rest) =
      (decodeStrAuxF f rest).map (fun sr => (c :: sr.1, sr.2)) := by
  by_cases h1 : c = '"'
  · subst h1
    rfl
  by_cases h2 : c = '\\'
  · subst h2
    rfl
  by_cases h3 : c = Char.ofNat 8
  · subst h3
    rfl
  by_cases h4 : c = '\t'
  · subst h4
    rfl
  by_cases h5 : c = '\n'
  · subst h5
    rfl
  by_cases h6 : c = Char.ofNat 12
  · subst h6
    rfl
  by_cases h7 : c = '\r'
  · subst h7
    rfl
  by_cases h8 : c.toNat < 32
  · have hesc : jsonEscapeChar c =
        ['\\', 'u', '0', '0', toHexDigit (c.toNat / 16), toHexDigit (c.toNat % 16)] := by
      unfold jsonEscapeChar
      rw [if_neg h1, if_neg h2, if_neg h3, if_neg h4, if_neg h5, if_neg h6,
        if_neg h7, if_pos h8]
    rw [hesc]
    show decodeStrAuxF (f + 1) ('\\' :: 'u' :: '0' :: '0' :: toHexDigit (c.toNat / 16)
      :: toHexDigit (c.toNat % 16) :: rest) = _
    rw [decode_u]
    have hq : c.toNat / 16 < 16 := by omega
    have hr : c.toNat % 16 < 16 := by omega
    rw [hexVal_toHexDigit _ hq, hexVal_toHexDigit _ hr]
    have hn : c.toNat / 16 * 16 + c.toNat % 16 = c.toNat := by omega
    rw [hn, Char.ofNat_toNat]
  · have hesc : jsonEscapeChar c = [c] := by
      unfold jsonEscapeChar
      rw [if_neg h1, if_neg h2, if_neg h3, if_neg h4, if_neg h5, if_neg h6,
        if_neg h7, if_neg h8]
    rw [hesc]
    show (if c = '"' then some ([], rest)
      else if c = '\\' then
        match rest with
        | [] => none
        | e :: rest2 =>
          if e = 'u' then
            match rest2 with
            | h1 :: h2 :: h3 :: h4 :: rest3 =>
              (decodeStrAuxF f rest3).map (fun sr =>
                (Char.ofNat (((hexVal h1 * 16 + hexVal h2) * 16 + hexVal h3) * 16
                  + hexVal h4) :: sr.1, sr.2))
            | _ => none
          else
            match unescapeChar e with
            | none => none
            | some c2 => (decodeStrAuxF f rest2).map (fun sr => (c2 :: sr.1, sr.2))
      else (decodeStrAuxF f rest).map (fun sr => (c :: sr.1, sr.2))) = _
    rw [if_neg h1, if_neg h2]

theorem decode_string (s : Str) (f : Nat) (rest : Str) (hf : s.length ≤ f) :
    decodeStrAuxF (f + 1) ((s.map jsonEscapeChar).flatten ++ '"' :: rest) =
      some (s, rest) := by
  induction s generalizing f with
  | nil => rfl
  | cons c cs ih =>
    rcases f with _ | f'
    · simp at hf
    · simp only [List.map_cons, List.flatten_cons, List.append_assoc]
      rw [decode_escape, ih f' (by simp only [List.length_cons] at hf; omega)]
      rfl

theorem decodeQuoted_jsonQuote (s : Str) (rest : Str) :
    decodeQuoted (jsonQuote s ++ rest) = some (s, rest) := by
  show decodeQuoted ('"' :: ((s.map jsonEscapeChar).flatten ++ ['"']) ++ rest) = _
  rw [List.cons_append, List.append_assoc]
  show decodeStrAuxF ((s.map jsonEscapeChar).flatten ++ ('"' :: rest)).length
    ((s.map jsonEscapeChar).flatten ++ ('"' :: rest)) = _
  have hlen : ((s.map jsonEscapeChar).flatten ++ ('"' :: rest)).length =
      ((s.map jsonEscapeChar).flatten.length + rest.length) + 1 := by
    simp only [List.length_append, List.length_cons]
    omega
  rw [hlen]
  exact decode_string s _ rest (by have := escaped_length_ge s; omega)

theorem quote_peel {s1 s2 r1 r2 : Str}
    (h : jsonQuote s1 ++ r1 = jsonQuote s2 ++ r2) : s1 = s2 ∧ r1 = r2 := by
  have hd := congrArg decodeQuoted h
  rw [decodeQuoted_jsonQuote, decodeQuoted_jsonQuote] at hd
  have hp := Option.some.inj hd
  exact ⟨congrArg Prod.fst hp, congrArg Prod.snd hp⟩

theorem arrBody_cons (x : Str) (xs : List Str) :
    arrBody (x :: xs) = jsonQuote x ++ (if xs = [] then [] else ',' :: arrBody xs) := by
  cases xs with
  | nil => simp [arrBody]
  | cons y ys => simp [arrBody]

theorem arr_peel {x1 x2 : List Str} {r1 r2 : Str}
    (h : jsonArr x1 ++ r1 = jsonArr x2 ++ r2) : x1 = x2 ∧ r1 = r2 := by
  induction x1 generalizing x2 r1 r2 with
  | nil =>
    cases x2 with
    | nil =>
      simp only [jsonArr, arrBody, List.cons_append, List.nil_append] at h
      exact ⟨rfl, (List.cons.inj ((List.cons.inj h).2)).2⟩
    | cons y ys =>
      simp only [jsonArr, arrBody_cons, jsonQuote, List.cons_append,
        List.nil_append, List.append_assoc] at h
      have h2 := (List.cons.inj h).2
      have h3 := (List.cons.inj h2).1
      exact absurd h3 (by decide)
  | cons x xs ih =>
    cases x2 with
    | nil =>
      simp only [jsonArr, arrBody_cons, jsonQuote, List.cons_append,
        List.nil_append, List.append_assoc] at h
      have h2 := (List.cons.inj h).2
      have h3 := (List.cons.inj h2).1
      exact absurd h3 (by decide)
    | cons y ys =>
      simp only [jsonArr, arrBody_cons, List.cons_append, List.append_assoc] at h
      have h2 := (List.cons.inj h).2
      obtain ⟨hxy, hrest⟩ := quote_peel h2
      subst hxy
      rcases xs with _ | ⟨w, ws⟩ <;> rcases ys with _ | ⟨z, zs⟩
      · simp only [if_pos rfl, List.nil_append] at hrest
        exact ⟨rfl, (List.cons.inj hrest).2⟩
      · simp only [if_pos rfl, if_neg (List.cons_ne_nil z zs),
          List.nil_append, List.cons_append] at hrest
        exact absurd ((List.cons.inj hrest).1) (by decide)
      · simp only [if_pos rfl, if_neg (List.cons_ne_nil w ws),
          List.nil_append, List.cons_append] at hrest
        exact absurd ((List.cons.inj hrest).1) (by decide)
      · simp only [if_neg (List.cons_ne_nil w ws), if_neg (List.cons_ne_nil z zs),
          List.cons_append, List.nil_append] at hrest
        have h4 := (List.cons.inj hrest).2
        have h5 : jsonArr (w :: ws) ++ r1 = jsonArr (z :: zs) ++ r2 := by
          simp only [jsonArr, List.cons_append, List.append_assoc, List.nil_append]
          exact congrArg (List.cons '[') h4
        obtain ⟨he, hr⟩ := ih h5
        exact ⟨by rw [he], hr⟩

theorem objBody_cons (p : Str × List Str) (ps : List (Str × List Str)) :
    objBody (p :: ps) = jsonQuote p.1 ++ ':' :: jsonArr p.2 ++
      (if ps = [] then [] else ',' :: objBody ps) := by
  cases ps with
  | nil => simp [objBody]
  | cons q qs => simp [objBody]

theorem obj_peel {ps1 ps2 : List (Str × List Str)} {r1 r2 : Str}
    (hk : ps1.map Prod.fst = ps2.map Prod.fst)
    (h : objBody ps1 ++ r1 = objBody ps2 ++ r2) : ps1 = ps2 ∧ r1 = r2 := by
  induction ps1 generalizing ps2 r1 r2 with
  | nil =>
    rcases ps2 with _ | ⟨q, qs⟩
    · simp only [objBody, List.nil_append] at h
      exact ⟨rfl, h⟩
    · simp at hk
  | cons p ps ih =>
    rcases ps2 with _ | ⟨q, qs⟩
    · simp at hk
    · simp only [List.map_cons, List.cons.injEq] at hk
      obtain ⟨hfst, hks⟩ := hk
      simp only [objBody_cons, List.cons_append, List.append_assoc,
        List.nil_append] at h
      obtain ⟨hq1, hrest⟩ := quote_peel h
      have h2 := (List.cons.inj hrest).2
      obtain ⟨hv, htail⟩ := arr_peel h2
      rcases ps with _ | ⟨w, ws⟩ <;> rcases qs with _ | ⟨z, zs⟩
      · simp only [if_pos rfl, List.nil_append] at htail
        exact ⟨by rw [Prod.ext hfst hv], htail⟩
      · simp at hks
      · simp at hks
      · simp only [if_neg (List.cons_ne_nil w ws), if_neg (List.cons_ne_nil z zs),
          List.cons_append] at htail
        have h3 := (List.cons.inj htail).2
        obtain ⟨he, hr⟩ := ih hks h3
        exact ⟨by rw [Prod.ext hfst hv, he], hr⟩

theorem payload_fst (keys : List Str) (f : Str → List Str) :
    (keys.map (fun k => (k, f k))).map Prod.fst = keys := by
  rw [List.map_map]
  exact List.map_id _

theorem computeFrontmatterSig_congr (rawKeys : List Str) (fm1 fm2 : Store)
    (h : ∀ k ∈ getEffectiveKeys rawKeys, fm1 k = fm2 k) :
    computeFrontmatterSig rawKeys fm1 = computeFrontmatterSig rawKeys fm2 := by
  simp only [computeFrontmatterSig]
  have hmap : (getEffectiveKeys rawKeys).map
        (fun k => (k, parseFrontmatterValue (fm1 k))) =
      (getEffectiveKeys rawKeys).map
        (fun k => (k, parseFrontmatterValue (fm2 k))) := by
    apply List.map_congr_left
    intro k hkmem
    rw [h k hkmem]
  rw [hmap]

theorem computeFrontmatterSig_inj (rawKeys : List Str) (fm1 fm2 : Store)
    (h : computeFrontmatterSig rawKeys fm1 = computeFrontmatterSig rawKeys fm2) :
    ∀ k ∈ getEffectiveKeys rawKeys,
      parseFrontmatterValue (fm1 k) = parseFrontmatterValue (fm2 k) := by
  simp only [computeFrontmatterSig, List.append_assoc] at h
  have h1 := List.append_cancel_left h
  have h2 := List.append_cancel_left h1
  have h3 := List.append_cancel_left h2
  have hk : ((getEffectiveKeys rawKeys).map
        (fun k => (k, parseFrontmatterValue (fm1 k)))).map Prod.fst =
      ((getEffectiveKeys rawKeys).map
        (fun k => (k, parseFrontmatterValue (fm2 k)))).map Prod.fst := by
    rw [payload_fst, payload_fst]
  obtain ⟨hpay, _⟩ := obj_peel hk h3
  intro k hkmem
  have := (List.map_inj_left.mp hpay) k hkmem
  exact congrArg Prod.snd this

theorem wikiInside_mkWiki (t a : Str) (ht : ∀ c ∈ t, isRegexDot c = true)
    (ha : ∀ c ∈ a, isRegexDot c = true) :
    wikiInside (mkWiki t a) = some (t ++ '|' :: a) := by
  have hne : t ++ '|' :: a ≠ [] := by simp
  have hdot : ∀ c ∈ t ++ '|' :: a, isRegexDot c = true := by
    intro c hc
    rcases List.mem_append.mp hc with hm | hm
    · exact ht c hm
    · rcases List.mem_cons.mp hm with rfl | hm2
      · decide
      · exact ha c hm2
  exact wikiInside_mk _ hne hdot

theorem entryKey_eq_cases (p e1 e2 : Str)
    (h : entryKey p e1 = entryKey p e2) :
    (∃ i1 i2, wikiInside e1 = some i1 ∧ wikiInside e2 = some i2 ∧
      linkNorm (stripMdExt (targetRawOf i1)) =
        linkNorm (stripMdExt (targetRawOf i2))) ∨
    (wikiInside e1 = none ∧ wikiInside e2 = none ∧ e1 = e2) := by
  rcases h1 : wikiInside e1 with _ | i1 <;> rcases h2 : wikiInside e2 with _ | i2
  · right
    refine ⟨rfl, rfl, ?_⟩
    cases hu1 : isHttpUrl e1 <;> cases hu2 : isHttpUrl e2
    · rw [entryKey_txt p e1 h1 hu1, entryKey_txt p e2 h2 hu2] at h
      exact List.append_cancel_left
        (List.append_cancel_left (List.append_cancel_left h))
    · rw [entryKey_txt p e1 h1 hu1, entryKey_url p e2 h2 hu2] at h
      have h3 := List.append_cancel_left (List.append_cancel_left h)
      have h4 := congrArg (List.take 2) h3
      rw [List.take_append_of_le_length (by decide),
        List.take_append_of_le_length (by decide)] at h4
      exact absurd h4 (by decide)
    · rw [entryKey_url p e1 h1 hu1, entryKey_txt p e2 h2 hu2] at h
      have h3 := List.append_cancel_left (List.append_cancel_left h)
      have h4 := congrArg (List.take 2) h3
      rw [List.take_append_of_le_length (by decide),
        List.take_append_of_le_length (by decide)] at h4
      exact absurd h4 (by decide)
    · rw [entryKey_url p e1 h1 hu1, entryKey_url p e2 h2 hu2] at h
      exact List.append_cancel_left
        (List.append_cancel_left (List.append_cancel_left h))
  · rw [entryKey_wiki p e2 i2 h2] at h
    cases hu1 : isHttpUrl e1
    · rw [entryKey_txt p e1 h1 hu1] at h
      have h3 := List.append_cancel_left (List.append_cancel_left h)
      have h4 := congrArg (List.take 2) h3
      rw [List.take_append_of_le_length (by decide),
        List.take_append_of_le_length (by decide)] at h4
      exact absurd h4 (by decide)
    · rw [entryKey_url p e1 h1 hu1] at h
      have h3 := List.append_cancel_left (List.append_cancel_left h)
      have h4 := congrArg (List.take 2) h3
      rw [List.take_append_of_le_length (by decide),
        List.take_append_of_le_length (by decide)] at h4
      exact absurd h4 (by decide)
  · rw [entryKey_wiki p e1 i1 h1] at h
    cases hu2 : isHttpUrl e2
    · rw [entryKey_txt p e2 h2 hu2] at h
      have h3 := List.append_cancel_left (List.append_cancel_left h)
      have h4 := congrArg (List.take 2) h3
      rw [List.take_append_of_le_length (by decide),
        List.take_append_of_le_length (by decide)] at h4
      exact absurd h4 (by decide)
    · rw [entryKey_url p e2 h2 hu2] at h
      have h3 := List.append_cancel_left (List.append_cancel_left h)
      have h4 := congrArg (List.take 2) h3
      rw [List.take_append_of_le_length (by decide),
        List.take_append_of_le_length (by decide)] at h4
      exact absurd h4 (by decide)
  · left
    refine ⟨i1, i2, rfl, rfl, ?_⟩
    rw [entryKey_wiki p e1 i1 h1, entryKey_wiki p e2 i2 h2] at h
    have h3 := List.append_cancel_left
      (List.append_cancel_left (List.append_cancel_left h))
    have h4 := congrArg halveSharp h3
    rwa [halveSharp_wikiBody, halveSharp_wikiBody] at h4

theorem effectiveKeys_ne_nil (rawKeys : List Str) :
    getEffectiveKeys rawKeys ≠ [] := by
  simp only [getEffectiveKeys]
  split
  · simp
  · rename_i hne
    intro hd
    rcases hl : (rawKeys.map trim).filter (fun k => k ≠ []) with _ | ⟨x, xs⟩
    · exact hne hl
    · rw [hl] at hd
      unfold dedupFirst at hd
      rw [if_neg (by simp)] at hd
      cases hd

theorem pickInitialEditKey_found (rawKeys : List Str) (store : Store)
    (defKey : Str) (pre post : List Str) (k : Str)
    (hsplit : getEffectiveKeys rawKeys = pre ++ k :: post)
    (hpre : ∀ k' ∈ pre, parseFrontmatterValue (store k') = [])
    (hk : parseFrontmatterValue (store k) ≠ []) :
    pickInitialEditKey rawKeys store defKey = k := by
  simp only [pickInitialEditKey, hsplit]
  rw [find?_first _ pre k post
    (fun x hx => by simp [hpre x hx])
    (by simp [List.isEmpty_iff, hk])]

theorem pickInitialEditKey_default (rawKeys : List Str) (store : Store)
    (defKey : Str)
    (hall : ∀ k ∈ getEffectiveKeys rawKeys, parseFrontmatterValue (store k) = [])
    (hdef : trim defKey ∈ getEffectiveKeys rawKeys) :
    pickInitialEditKey rawKeys store defKey = trim defKey := by
  simp only [pickInitialEditKey]
  rw [List.find?_eq_none.mpr (fun x hx => by simp [List.isEmpty_iff, hall x hx])]
  rw [if_pos ⟨effectiveKeys_mem_ne_nil rawKeys _ hdef, by simpa using hdef⟩]

theorem pickInitialEditKey_fallback (rawKeys : List Str) (store : Store)
    (defKey : Str)
    (hall : ∀ k ∈ getEffectiveKeys rawKeys, parseFrontmatterValue (store k) = [])
    (hdef : trim defKey ∉ getEffectiveKeys rawKeys) :
    pickInitialEditKey rawKeys store defKey = (getEffectiveKeys rawKeys).headD [] := by
  simp only [pickInitialEditKey]
  rw [List.find?_eq_none.mpr (fun x hx => by simp [List.isEmpty_iff, hall x hx])]
  rw [if_neg (fun hc => hdef (by simpa using hc.2))]

/-- C1: evaluation of the Section Builder at the spec's own dedup example,
fields a = two wikilinks X Y and b = wikilinks Y Z with dedup enabled.
The dedup set is keyed by the field-qualified identity, so the entry Y
under field b is NOT recognised as a duplicate of Y under field a: the
built sections keep Y in both fields, while the claim (and the settings
documentation of the dedupe toggle) expect b to lose it. -/
theorem claim1_cross_field_dedupe_eval :
    buildSections ⟨["a".data, "b".data], 0, true⟩
      (fun k =>
        if k = "a".data then .varr [.jstr "[[X]]".data, .jstr "[[Y]]".data]
        else if k = "b".data then .varr [.jstr "[[Y]]".data, .jstr "[[Z]]".data]
        else .vabsent) =
      [⟨"a".data, ["[[X]]".data, "[[Y]]".data]⟩,
       ⟨"b".data, ["[[Y]]".data, "[[Z]]".data]⟩] ∧
    buildSections ⟨["a".data, "b".data], 0, true⟩
      (fun k =>
        if k = "a".data then .varr [.jstr "[[X]]".data, .jstr "[[Y]]".data]
        else if k = "b".data then .varr [.jstr "[[Y]]".data, .jstr "[[Z]]".data]
        else .vabsent) ≠
      [⟨"a".data, ["[[X]]".data, "[[Y]]".data]⟩,
       ⟨"b".data, ["[[Z]]".data]⟩] := by
  constructor
  · decide
  · decide

/-- C2: on commit, a configured field receives a store write exactly when
its draft list differs from the parsed stored list under order-sensitive
element-wise comparison (the comparison primitive is list equality, and a
length difference always differs); an unchanged field's stored value is
left untouched; committing the read-back lists again issues zero writes
and leaves the store identical. -/
theorem claim2_commit_writes_iff_changed (keys : List Str) (hnd : keys.Nodup)
    (byKey : Str → List Str) (store : Store) (k : Str) (hk : k ∈ keys) :
    ((∃ w ∈ (commitAll keys byKey store).2, w.key = k) ↔
      byKey k ≠ getPreviewList store k) ∧
    (byKey k = getPreviewList store k →
      (commitAll keys byKey store).1 k = store k) ∧
    (∀ a b : List Str, sameList a b = true ↔ a = b) ∧
    (∀ s : Store, commitAll keys (getPreviewListsByKey s) s = (s, [])) :=
  ⟨commitAll_writes_iff keys hnd byKey store k hk,
   commitAll_fst_unchanged keys byKey store k,
   sameList_iff,
   fun s => commitAll_noop keys s⟩

/-- Witness for C2 at the spec's example: store k holds the list 1 2, the
draft is 3 1 2; the commit issues a write for k. -/
theorem claim2_witness :
    ∃ w ∈ (commitAll ["k".data] (fun _ => ["3".data, "1".data, "2".data])
      (fun _ => FmValue.varr [.jstr "1".data, .jstr "2".data])).2,
      w.key = "k".data :=
  (claim2_commit_writes_iff_changed ["k".data] (by decide)
    (fun _ => ["3".data, "1".data, "2".data])
    (fun _ => FmValue.varr [.jstr "1".data, .jstr "2".data])
    "k".data (by decide)).1.mpr (by decide)

/-- C3: the change signature is the canonical JSON serialization of the
effective key list together with each key's parsed entry list, so it is
unchanged whenever the two stores agree on every configured field (in
particular when only a field outside the configured set is modified), it
determines every configured field's parsed list (so reordering entries of
a configured field changes it), and the handler's unchanged test is plain
string equality with a missing previous signature never counting as
unchanged. -/
theorem claim3_signature_spec (rawKeys : List Str) :
    (∀ fm1 fm2 : Store, (∀ k ∈ getEffectiveKeys rawKeys, fm1 k = fm2 k) →
      computeFrontmatterSig rawKeys fm1 = computeFrontmatterSig rawKeys fm2) ∧
    (∀ fm1 fm2 : Store,
      computeFrontmatterSig rawKeys fm1 = computeFrontmatterSig rawKeys fm2 →
      ∀ k ∈ getEffectiveKeys rawKeys,
        parseFrontmatterValue (fm1 k) = parseFrontmatterValue (fm2 k)) ∧
    (∀ o n : Str, sigUnchanged (some o) n = true ↔ n = o) ∧
    (∀ n : Str, sigUnchanged none n = false) :=
  ⟨fun fm1 fm2 h => computeFrontmatterSig_congr rawKeys fm1 fm2 h,
   fun fm1 fm2 h => computeFrontmatterSig_inj rawKeys fm1 fm2 h,
   fun o n => by simp [sigUnchanged],
   fun _ => rfl⟩

/-- Witness for C3: two stores that differ only at field q have equal
signatures over the configured field k, and the signature-equality
direction transports the parsed list of k between two stores whose
signatures coincide. -/
theorem claim3_witness :
    computeFrontmatterSig ["k".data] (fun _ => FmValue.vstr "b, a".data) =
      computeFrontmatterSig ["k".data]
        (fun k => if k = "q".data then FmValue.vnull
          else FmValue.vstr "b, a".data) :=
  (claim3_signature_spec ["k".data]).1
    (fun _ => FmValue.vstr "b, a".data)
    (fun k => if k = "q".data then FmValue.vnull else FmValue.vstr "b, a".data)
    (by decide)

/-- Counterexample to C4: when the stored value of field k already parses
to the empty list (here it is stored as a literal empty list), committing
an empty draft for k performs no store operation at all: the field is NOT
removed from storage and no write is issued, contradicting the claim that
an empty final draft always removes the field. -/
theorem claim4_counterexample :
    (setPreviewList
      (fun k => if k = "k".data then FmValue.varr [] else FmValue.vabsent)
      "k".data []).1 "k".data = FmValue.varr [] ∧
    (setPreviewList
      (fun k => if k = "k".data then FmValue.varr [] else FmValue.vabsent)
      "k".data []).2 = [] := by
  constructor
  · rfl
  · rfl

/-- C4 as amended: when the stored value of the field parses to a
non-empty list (so the empty draft is an actual change), commit removes
the field from storage entirely, issuing a delete rather than writing an
empty list. -/
theorem claim4_empty_draft_deletes (store : Store) (k : Str)
    (h : getPreviewList store k ≠ []) :
    (setPreviewList store k []).1 k = FmValue.vabsent ∧
    (setPreviewList store k []).2 = [Write.deleteKey k] := by
  have hs : ¬ sameList (getPreviewList store k) [] = true :=
    fun hc => h ((sameList_iff _ _).mp hc)
  unfold setPreviewList
  rw [if_neg hs, if_pos rfl]
  exact ⟨by simp [storeSet], rfl⟩

/-- Witness for the amended C4 at a store holding one entry. -/
theorem claim4_witness :
    (setPreviewList (fun _ => FmValue.varr [JsValue.jstr "x".data])
      "k".data []).1 "k".data = FmValue.vabsent ∧
    (setPreviewList (fun _ => FmValue.varr [JsValue.jstr "x".data])
      "k".data []).2 = [Write.deleteKey "k".data] :=
  claim4_empty_draft_deletes (fun _ => FmValue.varr [JsValue.jstr "x".data])
    "k".data (by decide)

/-- C5: the Reference Parser is a total function over every raw value
shape: a list is stringified element-wise in place, a string is split on
newline, comma or semicolon with each piece trimmed and empty pieces
dropped (the split pieces concatenate back to the input minus its
delimiters, and trimming removes exactly a whitespace prefix and suffix),
and null, absent, numeric and boolean inputs all give the empty list. -/
theorem claim5_parse_total_spec :
    (∀ xs, parseFrontmatterValue (.varr xs) = xs.map jsToString) ∧
    (∀ s, parseFrontmatterValue (.vstr s) =
      ((splitDelims s).map trim).filter (fun p => p ≠ [])) ∧
    (∀ s, (splitDelims s).flatten = s.filter (fun c => !(isDelim c))) ∧
    (∀ s, ∃ a b, s = a ++ trim s ++ b ∧ (∀ c ∈ a, isJsSpace c = true) ∧
      (∀ c ∈ b, isJsSpace c = true)) ∧
    (∀ n, parseFrontmatterValue (.vnum n) = []) ∧
    (∀ b, parseFrontmatterValue (.vbool b) = []) ∧
    parseFrontmatterValue .vnull = [] ∧
    parseFrontmatterValue .vabsent = [] :=
  ⟨fun _ => rfl, fun _ => rfl, splitDelims_flatten, trim_decomp,
   fun _ => rfl, fun _ => rfl, rfl, rfl⟩

/-- Witness for C5 on a delimited string with whitespace and an empty
piece. -/
theorem claim5_witness :
    parseFrontmatterValue (FmValue.vstr " a, b;;c\nd ".data) =
      ["a".data, "b".data, "c".data, "d".data] := by
  rw [claim5_parse_total_spec.2.1]
  decide

/-- C6: for wikilink-shaped entries the identity ignores the alias: for
any target text (free of the alias separator and of line terminators, so
the written entry is wikilink-shaped with that target) and any two alias
texts (free of line terminators, keeping both entries wikilink-shaped),
the two entries receive equal identity keys under any property key. -/
theorem claim6_alias_invariant (p t a1 a2 : Str)
    (ht : ∀ c ∈ t, isRegexDot c = true) (hp : '|' ∉ t)
    (h1 : ∀ c ∈ a1, isRegexDot c = true) (h2 : ∀ c ∈ a2, isRegexDot c = true) :
    entryKey p (mkWiki t a1) = entryKey p (mkWiki t a2) := by
  rw [entryKey_wiki p _ _ (wikiInside_mkWiki t a1 ht h1),
      entryKey_wiki p _ _ (wikiInside_mkWiki t a2 ht h2)]
  have htr : ∀ a : Str, targetRawOf (t ++ '|' :: a) = t := by
    intro a
    unfold targetRawOf
    rw [firstSplit_append a hp]
  rw [htr a1, htr a2]

/-- Witness for C6 on a target with a subpath and two distinct aliases. -/
theorem claim6_witness :
    entryKey "k".data (mkWiki "T#h".data "alias one".data) =
      entryKey "k".data (mkWiki "T#h".data "other".data) :=
  claim6_alias_invariant "k".data "T#h".data "alias one".data "other".data
    (by decide) (by decide) (by decide) (by decide)

/-- Counterexample to C7: the two distinct wikilink entries for A and
A.md have different target strings yet receive the same identity key,
because the identity strips a trailing .md extension. -/
theorem claim7_counterexample :
    entryKey "a".data "[[A]]".data = entryKey "a".data "[[A.md]]".data ∧
    ("[[A]]".data : Str) ≠ "[[A.md]]".data ∧
    (wikiInside "[[A]]".data).map targetRawOf ≠
      (wikiInside "[[A.md]]".data).map targetRawOf := by
  refine ⟨by decide, by decide, by decide⟩

/-- C7 as amended: the identity is injective up to link normalization:
equal identity keys force the two entries to be of the same kind, and
then URL or plain-text entries are literally identical, while wikilink
entries have targets that agree after stripping a trailing .md extension
and after dropping a lone trailing anchor separator. -/
theorem claim7_identity_injective_upto_norm (p e1 e2 : Str)
    (h : entryKey p e1 = entryKey p e2) :
    (∃ i1 i2, wikiInside e1 = some i1 ∧ wikiInside e2 = some i2 ∧
      linkNorm (stripMdExt (targetRawOf i1)) =
        linkNorm (stripMdExt (targetRawOf i2))) ∨
    (wikiInside e1 = none ∧ wikiInside e2 = none ∧ e1 = e2) :=
  entryKey_eq_cases p e1 e2 h

/-- Witness for the amended C7 on the pair B and B.MD. -/
theorem claim7_witness :
    (∃ i1 i2, wikiInside "[[B]]".data = some i1 ∧
      wikiInside "[[B.MD]]".data = some i2 ∧
      linkNorm (stripMdExt (targetRawOf i1)) =
        linkNorm (stripMdExt (targetRawOf i2))) ∨
    (wikiInside "[[B]]".data = none ∧ wikiInside "[[B.MD]]".data = none ∧
      ("[[B]]".data : Str) = "[[B.MD]]".data) :=
  claim7_identity_injective_upto_norm "p".data "[[B]]".data "[[B.MD]]".data
    (by decide)

/-- C8: closing a session through cancel performs no document-store
operation: for every store, configured field list, initial field and
sequence of session mutations (field switches, appends, row removals,
reorders), ending with cancel returns the store unchanged with an empty
write log. -/
theorem claim8_cancel_discards (store : Store) (keys : List Str)
    (initialKey : Str) (ops : List SessionOp) :
    endSession .cancel store
      (runOps (openModal keys initialKey (getPreviewListsByKey store)) ops) =
      (store, []) := rfl

/-- C9: the initially active edit field is the first effective field whose
stored value parses non-empty; when every effective field parses empty the
trimmed default field is used when it is among the effective fields, and
otherwise the first effective field is used. -/
theorem claim9_initial_field (rawKeys : List Str) (store : Store)
    (defKey : Str) :
    (∀ pre k post, getEffectiveKeys rawKeys = pre ++ k :: post →
      (∀ k' ∈ pre, parseFrontmatterValue (store k') = []) →
      parseFrontmatterValue (store k) ≠ [] →
      pickInitialEditKey rawKeys store defKey = k) ∧
    ((∀ k ∈ getEffectiveKeys rawKeys, parseFrontmatterValue (store k) = []) →
      trim defKey ∈ getEffectiveKeys rawKeys →
      pickInitialEditKey rawKeys store defKey = trim defKey) ∧
    ((∀ k ∈ getEffectiveKeys rawKeys, parseFrontmatterValue (store k) = []) →
      trim defKey ∉ getEffectiveKeys rawKeys →
      pickInitialEditKey rawKeys store defKey =
        (getEffectiveKeys rawKeys).headD []) :=
  ⟨fun pre k post hs hp hk =>
      pickInitialEditKey_found rawKeys store defKey pre post k hs hp hk,
   pickInitialEditKey_default rawKeys store defKey,
   pickInitialEditKey_fallback rawKeys store defKey⟩

/-- Witness for C9: with fields a and b where only b parses non-empty,
the session opens on b even though the default names a missing field. -/
theorem claim9_witness :
    pickInitialEditKey ["a".data, "b".data]
      (fun k => if k = "b".data then FmValue.vstr "x".data else FmValue.vabsent)
      "zzz".data = "b".data :=
  (claim9_initial_field ["a".data, "b".data]
    (fun k => if k = "b".data then FmValue.vstr "x".data else FmValue.vabsent)
    "zzz".data).1 ["a".data] "b".data [] (by decide) (by decide) (by decide)

/-- C10: the changed-field comparison at commit is against the parsed form
of the stored value, so a field whose stored raw value parses to exactly
the draft list is considered unchanged: the store is returned untouched
(keeping the raw stored shape, such as a delimited string) and no write is
issued. -/
theorem claim10_compare_parsed_form (store : Store) (k : Str)
    (draft : List Str) (h : parseFrontmatterValue (store k) = draft) :
    setPreviewList store k draft = (store, []) :=
  setPreviewList_same store k draft h

/-- Witness for C10: a field stored as the delimited string a comma b and
a draft holding exactly its parse; the stored string shape survives. -/
theorem claim10_witness :
    setPreviewList (fun _ => FmValue.vstr "a, b".data) "k".data
      ["a".data, "b".data] = ((fun _ => FmValue.vstr "a, b".data), []) :=
  claim10_compare_parsed_form (fun _ => FmValue.vstr "a, b".data) "k".data
    ["a".data, "b".data] (by decide)

end RefPrev
